import Mathlib

/-!
Shallow embedding of the cross-reference derivation engine of
`sunless_wiki.py`: the event branch walker (`ForEachBranch`), the
area-reachability propagator (the explicit-stack DFS of `InitGlobals`,
lines 104-119), the shop-availability aggregator (`AddShopInfo` and the
static/dynamic phases of `InitGlobals`, lines 121-148), and the fuzzy
entity lookup (`FuzzyLookupItem`).

Python records are dicts accessed through string field constants; here they
are structures/inductives carrying exactly the fields the engine touches.
Python ids are unbounded integers, embedded as `Nat`/`Int`.  References such
as `LimitedToArea`, `LinkToEvent`, `SwitchToSetting` are dicts holding an
`Id` in the source; only that id is ever read, so they are embedded as
`Option Nat` (`none` for an absent/falsy reference).  Raised exceptions
(`RuntimeError`, `KeyError`) are embedded as `Except`/explicit error
results.
-/

namespace Sunless

mutual

/-- An Outcome record with the three fields the engine reads:
`ChildBranches` (must be empty for valid data), `LinkToEvent` (the id of the
linked event, `none` when the reference is absent) and `SwitchToSetting`
(the target setting id, `none` when absent). -/
inductive Outcome : Type where
  | mk : List Branch → Option Nat → Option Nat → Outcome

/-- A Branch record: its four outcome slots, in the `EVENT_TYPES` order
`SuccessEvent, DefaultEvent, RareSuccessEvent, RareDefaultEvent`; an absent
slot is `none`. -/
inductive Branch : Type where
  | mk : Option Outcome → Option Outcome → Option Outcome → Option Outcome → Branch

end

/-- Projection: the `ChildBranches` list of an outcome. -/
def Outcome.childBranches : Outcome → List Branch
  | .mk cb _ _ => cb

/-- Projection: the `LinkToEvent` id of an outcome. -/
def Outcome.linkToEvent : Outcome → Option Nat
  | .mk _ l _ => l

/-- Projection: the `SwitchToSetting` id of an outcome. -/
def Outcome.switchToSetting : Outcome → Option Nat
  | .mk _ _ s => s

/-- The outcome slots of a branch, in `EVENT_TYPES` iteration order. -/
def Branch.slots : Branch → List (Option Outcome)
  | .mk s d rs rd => [s, d, rs, rd]

/-- An Event record: its `Id`, its `LimitedToArea` origin-area id (`none`
when the event is not area-restricted), and its `ChildBranches`. -/
structure Event where
  id : Nat
  limitedToArea : Option Nat
  childBranches : List Branch

/-- The `RuntimeError("Nested branch in id %d: %s" ...)` raised by
`ForEachBranch`: it carries the offending event's id and the nested-branch
payload interpolated into the message. -/
structure NestedBranchError where
  eventId : Nat
  payload : List Branch

/-- Inner loop of `ForEachBranch`, running over the flattened list of
outcome slots (branch by branch, slots in `EVENT_TYPES` order): a falsy
(`none`) outcome is skipped, an outcome with non-empty `ChildBranches`
raises, every other outcome is yielded. -/
def collectOutcomes (eventId : Nat) : List (Option Outcome) → Except NestedBranchError (List Outcome)
  | [] => .ok []
  | none :: rest => collectOutcomes eventId rest
  | some o :: rest =>
    if o.childBranches.isEmpty then
      match collectOutcomes eventId rest with
      | .error e => .error e
      | .ok outs => .ok (o :: outs)
    else .error ⟨eventId, o.childBranches⟩

/-- `ForEachBranch(event)` (sunless_wiki.py lines 65-74).  The Python
generator is always fully consumed by its callers, so it is embedded as the
full list of yielded outcomes, or the error raised at the first outcome that
carries its own branches. -/
def ForEachBranch (event : Event) : Except NestedBranchError (List Outcome) :=
  collectOutcomes event.id ((event.childBranches.map Branch.slots).flatten)

/-- An event is clear of nested branches when every non-absent outcome slot
of every branch has empty `ChildBranches`. -/
def eventAllClear (event : Event) : Bool :=
  event.childBranches.all fun b =>
    b.slots.all fun s =>
      match s with
      | none => true
      | some o => o.childBranches.isEmpty

/-! ### Fuzzy lookup (`FuzzyLookupItem`, lines 158-181) -/

/-- A generic entity as seen by `FuzzyLookupItem`: only the `Id` and `Name`
fields are read.  `Name` may be JSON `null` (`none`). -/
structure Entity where
  id : Int
  name : Option String
deriving DecidableEq

/-- Result of a fuzzy lookup: the found entity, or one of the three
`RuntimeError`s of the source (id not found, no name containing the token,
multiple matches listing the matched entities' names). -/
inductive LookupResult where
  | found (x : Entity)
  | idNotFound (idd : Int)
  | nameNotFound (tok : String)
  | ambiguous (tok : String) (names : List (Option String))
deriving DecidableEq

/-- Value of a non-empty all-digit character list, as `int()` computes it. -/
def digitsVal (l : List Char) : Option Nat :=
  match l with
  | [] => none
  | l =>
    if l.all Char.isDigit then
      some (l.foldl (fun acc c => 10 * acc + (c.toNat - 48)) 0)
    else none

/-- Model of Python `int(string)` as used on lookup tokens: an optional sign
followed by one or more ASCII digits parses to that integer, anything else
raises `ValueError` (`none`).  (Whitespace trimming, underscore grouping and
non-ASCII digits of the full CPython grammar are not exercised by this
tool's tokens.) -/
def pyInt (s : String) : Option Int :=
  match s.data with
  | '-' :: rest => (digitsVal rest).map (fun n => -(n : Int))
  | '+' :: rest => (digitsVal rest).map (fun n => (n : Int))
  | l => (digitsVal l).map (fun n => (n : Int))

/-- Model of Python `str.islower()` on the ASCII strings this tool sees: at
least one lower-case letter and no upper-case letter. -/
def pyIsLower (s : String) : Bool :=
  s.data.any (fun c => c.isLower) && s.data.all (fun c => !c.isUpper)

/-- An ASCII upper-case letter shifted to lower case; other characters are
unchanged. -/
def asciiLower (c : Char) : Char :=
  if c.isUpper then Char.ofNat (c.toNat + 32) else c

/-- Model of Python `str.lower()` on the ASCII strings this tool sees:
upper-case ASCII letters are folded to lower case character by character. -/
def pyLower (s : String) : String :=
  ⟨s.data.map asciiLower⟩

/-- Contiguous-sublist test on character lists (Python's `needle in hay`). -/
def subList (needle : List Char) : List Char → Bool
  | [] => needle.isEmpty
  | c :: rest => needle.isPrefixOf (c :: rest) || subList needle rest

/-- Python's substring operator `needle in hay` on strings. -/
def pyIn (needle hay : String) : Bool :=
  subList needle.data hay.data

/-- End of the name-matching loop of `FuzzyLookupItem`: exactly one
collected match is returned, zero raises the not-found error, several raise
the ambiguous error listing the matched entities' names. -/
def scanFinish (tok : String) (collected : List Entity) : LookupResult :=
  match collected with
  | [y] => .found y
  | [] => .nameNotFound tok
  | _ => .ambiguous tok (collected.map Entity.name)

/-- The name-matching loop of `FuzzyLookupItem` (lines 166-181): for each
entity, `name = x[NAME] or ''`; an exact match against the token's original
case returns immediately; otherwise the name (case-folded when the token is
all lower-case) is tested for containing the token as a substring, and
matches are accumulated. -/
def fuzzyNameScan (tok : String) (insensitive : Bool) (collected : List Entity) :
    List Entity → LookupResult
  | [] => scanFinish tok collected
  | x :: rest =>
    let name := x.name.getD ""
    if tok = name then .found x
    else if pyIn tok (if insensitive then pyLower name else name) then
      fuzzyNameScan tok insensitive (collected ++ [x]) rest
    else
      fuzzyNameScan tok insensitive collected rest

/-- `FuzzyLookupItem(name_or_id, lst)` (lines 158-181): a token parsing as
an integer is looked up by id only (a miss raises the id-not-found error);
any other token goes through the name-matching loop. -/
def FuzzyLookupItem (tok : String) (lst : List Entity) : LookupResult :=
  match pyInt tok with
  | some idd =>
    match lst.find? (fun x => x.id == idd) with
    | some x => .found x
    | none => .idNotFound idd
  | none => fuzzyNameScan tok (pyIsLower tok) [] lst

/-- The name, folded exactly as the name-matching loop folds it before the
substring test: lower-cased when the whole token is lower-case, untouched
otherwise. -/
def foldedName (tok : String) (x : Entity) : String :=
  if pyIsLower tok then pyLower (x.name.getD "") else x.name.getD ""

/-- The entities of `lst` whose (possibly folded) name contains the token as
a substring, in list order: the `matches` collected by the loop when no
exact match short-circuits it. -/
def nameMatches (tok : String) (lst : List Entity) : List Entity :=
  lst.filter (fun x => pyIn tok (foldedName tok x))

/-! ### Area-reachability propagator (`InitGlobals`, lines 100-119)

`EVENTS_MAP` maps ids to event records; the derived `event[AREA]` lists,
initially `[]` for every event (line 102), are the mutable state of the
traversal.  Because two records with the same id would be conflated by
`EVENTS_MAP` anyway, the state is keyed by event id: `Nat → List Nat`. -/

/-- `EVENTS_MAP[i]`: the dict is filled by iterating `EVENTS` in order, later
records overwriting earlier ones with the same id, so a lookup finds the last
matching record. -/
def lookupEvent (events : List Event) (i : Nat) : Option Event :=
  events.reverse.find? (fun e => e.id == i)

/-- An error aborting the propagation run: the `RuntimeError` from
`ForEachBranch`, or the `KeyError` of `EVENTS_MAP[link[ID]]` on a dangling
`link to event` reference. -/
inductive PropError where
  | nestedBranch (err : NestedBranchError)
  | missingEvent (i : Nat)

/-- Result of the traversal: the final id-keyed derived-area-list state, a
fatal data error, or exhaustion of the fuel bound (which the termination
theorem rules out for the bound used by `propagate`). -/
inductive DfsResult where
  | ok (st : Nat → List Nat)
  | err (e : PropError)
  | outOfFuel

/-- The non-absent `link to event` ids of a list of outcomes, in order. -/
def linkIds (outs : List Outcome) : List Nat :=
  outs.filterMap Outcome.linkToEvent

/-- `EVENTS_MAP[link[ID]]` for each pushed link: every id must resolve,
a miss is the fatal `KeyError`. -/
def resolveLinks (events : List Event) : List Nat → Except PropError (List Event)
  | [] => .ok []
  | i :: rest =>
    match lookupEvent events i with
    | none => .error (.missingEvent i)
    | some e =>
      match resolveLinks events rest with
      | .error err => .error err
      | .ok l => .ok (e :: l)

/-- `event[AREA].append(limit_id)` on the id-keyed state. -/
def markArea (st : Nat → List Nat) (i limitId : Nat) : Nat → List Nat :=
  fun j => if j = i then st j ++ [limitId] else st j

/-- The `while stack:` loop of the DFS (lines 110-119), with explicit fuel.
The top of the Python stack is its last element, so pushing the linked
events `e₁ … eₖ` in outcome order puts `eₖ` on top: the cons-list stack
grows by `pushed.reverse`. -/
def dfsLoop (events : List Event) (limitId : Nat) :
    Nat → List Event → (Nat → List Nat) → DfsResult
  | 0, _, _ => .outOfFuel
  | _ + 1, [], st => .ok st
  | fuel + 1, event :: rest, st =>
    if limitId ∈ st event.id then dfsLoop events limitId fuel rest st
    else
      match ForEachBranch event with
      | .error e => .err (.nestedBranch e)
      | .ok outs =>
        match resolveLinks events (linkIds outs) with
        | .error e => .err e
        | .ok pushed =>
          dfsLoop events limitId fuel (pushed.reverse ++ rest)
            (markArea st event.id limitId)

/-- The outer `for x in EVENTS:` seeding loop (lines 104-109): every event
with a non-absent `limited to area` reference seeds one DFS run with that
area's id. -/
def propagateAux (events : List Event) (fuel : Nat) :
    List Event → (Nat → List Nat) → DfsResult
  | [], st => .ok st
  | x :: rest, st =>
    match x.limitedToArea with
    | none => propagateAux events fuel rest st
    | some limitId =>
      match dfsLoop events limitId fuel [x] st with
      | .ok st' => propagateAux events fuel rest st'
      | .err e => .err e
      | .outOfFuel => .outOfFuel

/-- Number of links an event pushes when it is expanded (0 if its branch
walk fails, since the run aborts there anyway). -/
def eventLinkCount (e : Event) : Nat :=
  match ForEachBranch e with
  | .ok outs => (linkIds outs).length
  | .error _ => 0

/-- An upper bound on the number of events any single expansion pushes. -/
def maxLinkCount (events : List Event) : Nat :=
  events.foldr (fun e m => max (eventLinkCount e) m) 0

/-- Fuel sufficient for any single DFS run over `events` (proved by
`dfsLoop_no_fuel_out` below): each run marks at most one new id per
expansion, so `distinct ids × (max pushes + 1)` steps bound it. -/
def fuelBound (events : List Event) : Nat :=
  (events.map Event.id).dedup.length * (maxLinkCount events + 1) + 2

/-- The whole reachability-propagation phase, from the all-empty derived
state: the final state maps each event id to the derived list of origin-area
ids recorded on that event. -/
def propagate (events : List Event) : DfsResult :=
  propagateAux events (fuelBound events) events (fun _ => [])

/-! ### Shop-availability aggregator (lines 55-81 and 121-148) -/

/-- `LIMBO` (line 63). -/
def LIMBO : Nat := 101956

/-- An Area record: its `Id` and display `Name`; the mutable `Subsurface`
annotation lives in the aggregation state. -/
structure Area where
  id : Nat
  name : Option String
deriving DecidableEq

/-- An ExchangeGroup record: its `Id` and its `SettingIds`. -/
structure ExchangeGroup where
  id : Nat
  settingIds : List Nat
deriving DecidableEq

/-- A Port record from a tile: the referenced area id, the referenced
setting id, and the port's subsurface flag. -/
structure Port where
  areaId : Nat
  settingId : Nat
  subsurface : Bool
deriving DecidableEq

/-- One entry of a tile's `Tiles` list: only `entry[0][PORT_DATA]` is read. -/
structure TileEntry where
  portData : List Port
deriving DecidableEq

/-- A record of `TILES_DATA`: its possibly-empty (falsy) `Tiles` list. -/
structure Tile where
  tiles : List TileEntry
deriving DecidableEq

/-- The mutable state of the aggregation: `SHOP_AREAS` (group id → list of
area ids; every accessed group id is pre-initialised to `[]` at line 123, so
a total function with default `[]` is faithful) and the `Subsurface`
annotation written onto area records (`none` is the initial `None` of line
87).  `SHOP_AREAS` holds area ids: the Python lists hold the unique area
record per id coming from `AREAS_MAP`, so object membership coincides with
id membership. -/
structure AggState where
  shopAreas : Nat → List Nat
  areaSub : Nat → Option Bool

/-- `AREAS_MAP[i]` (same last-write-wins dict semantics as `EVENTS_MAP`). -/
def lookupArea (areas : List Area) (i : Nat) : Option Area :=
  areas.reverse.find? (fun a => a.id == i)

/-- `settings_map` (lines 121-125): iterating the groups in order and their
setting ids, later writes overwriting earlier ones, leaves each setting id
mapped to the last group listing it. -/
def settingsMap (exchanges : List ExchangeGroup) (s : Nat) : Option ExchangeGroup :=
  exchanges.reverse.find? (fun g => g.settingIds.contains s)

/-- `AddShopInfo(group, area)` (lines 76-81): the Limbo sentinel is dropped,
anything else is appended to the group's list unless already present. -/
def AddShopInfo (st : AggState) (group : ExchangeGroup) (area : Area) : AggState :=
  if area.id = LIMBO then st
  else
    let value := st.shopAreas group.id
    if area.id ∈ value then st
    else
      { st with shopAreas := fun j => if j = group.id then value ++ [area.id] else st.shopAreas j }

/-- An error aborting the aggregation: a nested branch from `ForEachBranch`,
the `KeyError` of an unguarded `AREAS_MAP` lookup, or the `KeyError` of the
unguarded `settings_map` lookup of the dynamic phase (line 146). -/
inductive ShopError where
  | nested (err : NestedBranchError)
  | missingArea (i : Nat)
  | missingSetting (i : Nat)

/-- One port of the static phase (lines 132-138): resolve the area
(`KeyError` on a miss), write its subsurface flag, then look the setting id
up in `settings_map` — a miss skips the port (`continue`), a hit records the
area for the joined group. -/
def portStep (areas : List Area) (smap : Nat → Option ExchangeGroup)
    (st : AggState) (port : Port) : Except ShopError AggState :=
  match lookupArea areas port.areaId with
  | none => .error (.missingArea port.areaId)
  | some area =>
    let st1 : AggState :=
      { st with areaSub := fun j => if j = area.id then some port.subsurface else st.areaSub j }
    match smap port.settingId with
    | none => .ok st1
    | some group => .ok (AddShopInfo st1 group area)

/-- The `for port in entry[0][PORT_DATA]:` loop. -/
def portsFold (areas : List Area) (smap : Nat → Option ExchangeGroup) :
    List Port → AggState → Except ShopError AggState
  | [], st => .ok st
  | p :: rest, st =>
    match portStep areas smap st p with
    | .error e => .error e
    | .ok st' => portsFold areas smap rest st'

/-- The static phase (lines 128-138): tiles with a falsy `Tiles` list are
skipped, otherwise the ports of the first entry are processed. -/
def tilesFold (areas : List Area) (smap : Nat → Option ExchangeGroup) :
    List Tile → AggState → Except ShopError AggState
  | [], st => .ok st
  | t :: rest, st =>
    match t.tiles with
    | [] => tilesFold areas smap rest st
    | entry :: _ =>
      match portsFold areas smap entry.portData st with
      | .error e => .error e
      | .ok st' => tilesFold areas smap rest st'

/-- The `for area_id in event[AREA]:` loop of the dynamic phase (lines
147-148): each derived area id is resolved through `AREAS_MAP` (unguarded)
and recorded for the group. -/
def areaIdsFold (areas : List Area) (group : ExchangeGroup) :
    List Nat → AggState → Except ShopError AggState
  | [], st => .ok st
  | i :: rest, st =>
    match lookupArea areas i with
    | none => .error (.missingArea i)
    | some area => areaIdsFold areas group rest (AddShopInfo st group area)

/-- The per-outcome body of the dynamic phase (lines 143-148): a falsy
`switch to setting` is skipped; otherwise `settings_map[setting[ID]]` is an
unguarded dict lookup, so a setting id absent from the join map raises
`KeyError` and aborts the run. -/
def outcomesFold (areas : List Area) (smap : Nat → Option ExchangeGroup)
    (eventAreaIds : List Nat) : List Outcome → AggState → Except ShopError AggState
  | [], st => .ok st
  | o :: rest, st =>
    match o.switchToSetting with
    | none => outcomesFold areas smap eventAreaIds rest st
    | some sid =>
      match smap sid with
      | none => .error (.missingSetting sid)
      | some group =>
        match areaIdsFold areas group eventAreaIds st with
        | .error e => .error e
        | .ok st' => outcomesFold areas smap eventAreaIds rest st'

/-- The dynamic phase (lines 141-148): every event's outcomes are walked
with `ForEachBranch` (whose nested-branch error aborts), using the event's
derived reachable-area list from the propagation phase. -/
def eventsFold (areas : List Area) (smap : Nat → Option ExchangeGroup)
    (eventAreas : Nat → List Nat) : List Event → AggState → Except ShopError AggState
  | [], st => .ok st
  | ev :: rest, st =>
    match ForEachBranch ev with
    | .error e => .error (.nested e)
    | .ok outs =>
      match outcomesFold areas smap (eventAreas ev.id) outs st with
      | .error e => .error e
      | .ok st' => eventsFold areas smap eventAreas rest st'

/-- The whole shop-availability aggregation: the static phase over the
tiles, then the dynamic phase over the events, from the freshly initialised
state. -/
def aggregate (areas : List Area) (exchanges : List ExchangeGroup)
    (tiles : List Tile) (events : List Event) (eventAreas : Nat → List Nat) :
    Except ShopError AggState :=
  match tilesFold areas (settingsMap exchanges) tiles ⟨fun _ => [], fun _ => none⟩ with
  | .error e => .error e
  | .ok st => eventsFold areas (settingsMap exchanges) eventAreas events st

/-! ### Reachability relation used to state the propagation claims -/

/-- `e1` links directly to `e2`: some outcome of `e1` (its branch walk
succeeding) carries a non-absent `link to event` whose id resolves to `e2`
in `EVENTS_MAP`. -/
def LinksTo (events : List Event) (e1 e2 : Event) : Prop :=
  ∃ outs, ForEachBranch e1 = .ok outs ∧
    ∃ o ∈ outs, ∃ l, o.linkToEvent = some l ∧ lookupEvent events l = some e2

/-- `ReachableFrom events e1 e2`: `e2` is reachable from `e1` by a (possibly
empty) chain of `link to event` references inside outcomes. -/
inductive ReachableFrom (events : List Event) (e1 : Event) : Event → Prop
  | refl : ReachableFrom events e1 e1
  | step {e2 e3 : Event} :
      ReachableFrom events e1 e2 → LinksTo events e2 e3 → ReachableFrom events e1 e3

/-! ### Invariants and measures used by the proofs -/

/-- The two `SHOP_AREAS` list invariants of the aggregation: no list
contains the Limbo sentinel, and no list contains a duplicate. -/
def GoodLists (st : AggState) : Prop :=
  ∀ g, LIMBO ∉ st.shopAreas g ∧ (st.shopAreas g).Nodup

/-- The derived lists are closed under direct links for origin-area id `c`:
whenever an event of the table is tagged with `c`, so is every event it
links to. -/
def Closed (events : List Event) (c : Nat) (st : Nat → List Nat) : Prop :=
  ∀ e1 ∈ events, c ∈ st e1.id → ∀ e2, LinksTo events e1 e2 → c ∈ st e2.id

/-- DFS loop invariant: an event tagged with the running origin-area id has
each of its link successors either already tagged or still pending on the
stack. -/
def LoopInv (events : List Event) (limitId : Nat) (st : Nat → List Nat)
    (stack : List Event) : Prop :=
  ∀ e1 ∈ events, limitId ∈ st e1.id →
    ∀ e2, LinksTo events e1 e2 → limitId ∈ st e2.id ∨ e2 ∈ stack

/-- Number of distinct event ids not yet tagged with `limitId`. -/
def unmarkedCount (events : List Event) (limitId : Nat) (st : Nat → List Nat) : Nat :=
  ((events.map Event.id).dedup.filter (fun i => decide (limitId ∉ st i))).length

/-- Termination measure of the DFS loop: every iteration strictly decreases
it, since a pop either shrinks the stack or tags a new id while pushing at
most `maxLinkCount events` successors. -/
def dfsMeasure (events : List Event) (limitId : Nat) (stack : List Event)
    (st : Nat → List Nat) : Nat :=
  unmarkedCount events limitId st * (maxLinkCount events + 1) + stack.length

/-! ### Concrete fixtures used by the witnesses -/

/-- A 2-cycle: event 1 (origin area 7) links to event 2, which links back to
event 1. -/
def cycleEvents : List Event :=
  [⟨1, some 7, [Branch.mk (some (.mk [] (some 2) none)) none none none]⟩,
   ⟨2, none, [Branch.mk (some (.mk [] (some 1) none)) none none none]⟩]

/-- Chain fixture for the transitivity witness: event 1 (origin area 7)
links to event 2, which has no origin of its own. -/
def chainEvents : List Event :=
  [⟨1, some 7, [Branch.mk (some (.mk [] (some 2) none)) none none none]⟩,
   ⟨2, none, []⟩]

/-- Seed fixture: a single origin-restricted event with no branches. -/
def seedEvents : List Event := [⟨3, some 9, []⟩]

/-- Aggregation fixture: the Limbo area and an ordinary area. -/
def wAreas : List Area := [⟨101956, some "Limbo"⟩, ⟨5, some "A"⟩]

/-- Aggregation fixture: one group joined to setting 11. -/
def wExchanges : List ExchangeGroup := [⟨100, [11]⟩]

/-- Aggregation fixture: one tile whose ports target Limbo once and the
ordinary area twice, all through setting 11. -/
def wTiles : List Tile := [⟨[⟨[⟨101956, 11, false⟩, ⟨5, 11, true⟩, ⟨5, 11, true⟩]⟩]⟩]

/-- Aggregation fixture: one event whose single outcome switches to setting
11. -/
def wEvents : List Event :=
  [⟨9, none, [Branch.mk (some (.mk [] none (some 11))) none none none]⟩]

/-! ## Event branch walker: nested branches are fatal (C6) -/

lemma collectOutcomes_spec (eventId : Nat) :
    ∀ slots : List (Option Outcome),
      (match collectOutcomes eventId slots with
       | .ok _ => ∀ o : Outcome, some o ∈ slots → o.childBranches.isEmpty = true
       | .error err => err.eventId = eventId ∧
           ∃ o : Outcome, some o ∈ slots ∧ err.payload = o.childBranches ∧
             o.childBranches.isEmpty = false) := by
  intro slots
  induction slots with
  | nil => simp [collectOutcomes]
  | cons s rest ih =>
    match s with
    | none =>
      rw [show collectOutcomes eventId (none :: rest) = collectOutcomes eventId rest from rfl]
      cases hr : collectOutcomes eventId rest with
      | ok outs =>
        rw [hr] at ih
        intro o ho
        rcases List.mem_cons.mp ho with h | h
        · exact absurd h (Option.some_ne_none o)
        · exact ih o h
      | error err =>
        rw [hr] at ih
        exact ⟨ih.1, ih.2.choose, List.mem_cons_of_mem _ ih.2.choose_spec.1,
          ih.2.choose_spec.2.1, ih.2.choose_spec.2.2⟩
    | some o =>
      by_cases he : o.childBranches.isEmpty = true
      · rw [show collectOutcomes eventId (some o :: rest) =
            (if o.childBranches.isEmpty then
              (match collectOutcomes eventId rest with
               | .error e => .error e
               | .ok outs => .ok (o :: outs)) else
              .error ⟨eventId, o.childBranches⟩) from rfl, if_pos he]
        cases hr : collectOutcomes eventId rest with
        | ok outs =>
          rw [hr] at ih
          intro o' ho'
          rcases List.mem_cons.mp ho' with h | h
          · rw [Option.some_inj.mp h]; exact he
          · exact ih o' h
        | error err =>
          rw [hr] at ih
          exact ⟨ih.1, ih.2.choose, List.mem_cons_of_mem _ ih.2.choose_spec.1,
            ih.2.choose_spec.2.1, ih.2.choose_spec.2.2⟩
      · rw [show collectOutcomes eventId (some o :: rest) =
            (if o.childBranches.isEmpty then
              (match collectOutcomes eventId rest with
               | .error e => .error e
               | .ok outs => .ok (o :: outs)) else
              .error ⟨eventId, o.childBranches⟩) from rfl, if_neg he]
        exact ⟨rfl, o, List.mem_cons_self _ _, rfl, Bool.eq_false_iff.mpr he⟩

/-- C6. The event branch walker fails, with an error carrying the event's id
and the offending nested-branch payload, exactly when some enumerated
outcome of the event carries branches of its own; on an event all of whose
outcomes are branch-free it produces its outcome list without error. -/
theorem nested_branch_walker_fatal (event : Event) :
    match ForEachBranch event with
    | .ok _ => eventAllClear event = true
    | .error err =>
        eventAllClear event = false ∧ err.eventId = event.id ∧
        ∃ b ∈ event.childBranches, ∃ o : Outcome, some o ∈ b.slots ∧
          err.payload = o.childBranches ∧ o.childBranches.isEmpty = false := by
  have h := collectOutcomes_spec event.id ((event.childBranches.map Branch.slots).flatten)
  rw [show ForEachBranch event =
      collectOutcomes event.id ((event.childBranches.map Branch.slots).flatten) from rfl]
  cases hc : collectOutcomes event.id ((event.childBranches.map Branch.slots).flatten) with
  | ok outs =>
    rw [hc] at h
    unfold eventAllClear
    rw [List.all_eq_true]
    intro b hb
    rw [List.all_eq_true]
    intro s hs
    match s with
    | none => rfl
    | some o =>
      exact h o (List.mem_flatten.mpr ⟨b.slots, List.mem_map_of_mem _ hb, hs⟩)
  | error err =>
    rw [hc] at h
    obtain ⟨hid, o, ho, hp, hne⟩ := h
    obtain ⟨l, hl, hol⟩ := List.mem_flatten.mp ho
    obtain ⟨b, hb, rfl⟩ := List.mem_map.mp hl
    refine ⟨?_, hid, b, hb, o, hol, hp, hne⟩
    rw [Bool.eq_false_iff]
    intro hall
    unfold eventAllClear at hall
    rw [List.all_eq_true] at hall
    have h2 := hall b hb
    rw [List.all_eq_true] at h2
    have h3 := h2 (some o) hol
    rw [show (match some o with
        | none => true
        | some o => o.childBranches.isEmpty) = o.childBranches.isEmpty from rfl] at h3
    rw [h3] at hne
    exact Bool.true_eq_false ▸ hne

/-! ## Fuzzy lookup (C7, C8, C9) -/

/-- C9. A token parsing as an integer takes only the id-equality path:
either some entity of the list has that id and the first such entity is
returned, or no entity does and the lookup fails with the id-not-found
error.  In particular this path never reaches name matching. -/
theorem fuzzy_integer_token_id_only (tok : String) (n : Int) (lst : List Entity)
    (h : pyInt tok = some n) :
    (∃ y, FuzzyLookupItem tok lst = .found y ∧ y ∈ lst ∧ y.id = n) ∨
    ((∀ x ∈ lst, x.id ≠ n) ∧ FuzzyLookupItem tok lst = .idNotFound n) := by
  have hfl : FuzzyLookupItem tok lst =
      (match lst.find? (fun x => x.id == n) with
       | some x => .found x
       | none => .idNotFound n) := by
    rw [show FuzzyLookupItem tok lst =
        (match pyInt tok with
         | some idd =>
           (match lst.find? (fun x => x.id == idd) with
            | some x => .found x
            | none => .idNotFound idd)
         | none => fuzzyNameScan tok (pyIsLower tok) [] lst) from rfl, h]
  cases hf : lst.find? (fun x => x.id == n) with
  | some x =>
    rw [hf] at hfl
    refine .inl ⟨x, hfl, List.mem_of_find?_eq_some hf, ?_⟩
    have := List.find?_some hf
    simpa using this
  | none =>
    rw [hf] at hfl
    refine .inr ⟨?_, hfl⟩
    intro x hx he
    have := List.find?_eq_none.mp hf x hx
    exact this (by rw [he]; exact beq_self_eq_true n)

/-- C9 witness: token `"42"` against a list where another entity's name
contains `"42"`; the id-42 entity is found by id, not by name. -/
theorem fuzzy_integer_token_id_only_witness :
    (∃ y, FuzzyLookupItem "42" [⟨7, some "42 club"⟩, ⟨42, some "whatever"⟩] = .found y ∧
        y ∈ [(⟨7, some "42 club"⟩ : Entity), ⟨42, some "whatever"⟩] ∧ y.id = 42) ∨
    ((∀ x ∈ [(⟨7, some "42 club"⟩ : Entity), ⟨42, some "whatever"⟩], x.id ≠ 42) ∧
        FuzzyLookupItem "42" [⟨7, some "42 club"⟩, ⟨42, some "whatever"⟩] = .idNotFound 42) :=
  fuzzy_integer_token_id_only "42" 42 [⟨7, some "42 club"⟩, ⟨42, some "whatever"⟩] (by decide)

lemma fuzzyNameScan_exact (tok : String) (ins : Bool) :
    ∀ (l acc : List Entity), (∃ x ∈ l, x.name.getD "" = tok) →
      ∃ y ∈ l, fuzzyNameScan tok ins acc l = .found y ∧ y.name.getD "" = tok := by
  intro l
  induction l with
  | nil => intro acc h; exact absurd h.choose_spec.1 (List.not_mem_nil _)
  | cons x rest ih =>
    intro acc hex
    by_cases hx : tok = x.name.getD ""
    · refine ⟨x, List.mem_cons_self _ _, ?_, hx.symm⟩
      rw [show fuzzyNameScan tok ins acc (x :: rest) =
          (if tok = x.name.getD "" then .found x
           else if pyIn tok (if ins then pyLower (x.name.getD "") else x.name.getD "") then
             fuzzyNameScan tok ins (acc ++ [x]) rest
           else fuzzyNameScan tok ins acc rest) from rfl, if_pos hx]
    · have hrest : ∃ x' ∈ rest, x'.name.getD "" = tok := by
        obtain ⟨x', hx', he'⟩ := hex
        rcases List.mem_cons.mp hx' with h | h
        · exact absurd (h ▸ he').symm hx
        · exact ⟨x', h, he'⟩
      rw [show fuzzyNameScan tok ins acc (x :: rest) =
          (if tok = x.name.getD "" then .found x
           else if pyIn tok (if ins then pyLower (x.name.getD "") else x.name.getD "") then
             fuzzyNameScan tok ins (acc ++ [x]) rest
           else fuzzyNameScan tok ins acc rest) from rfl, if_neg hx]
      by_cases hp : pyIn tok (if ins then pyLower (x.name.getD "") else x.name.getD "") = true
      · rw [if_pos hp]
        obtain ⟨y, hy, hr, he⟩ := ih (acc ++ [x]) hrest
        exact ⟨y, List.mem_cons_of_mem _ hy, hr, he⟩
      · rw [if_neg hp]
        obtain ⟨y, hy, hr, he⟩ := ih acc hrest
        exact ⟨y, List.mem_cons_of_mem _ hy, hr, he⟩

/-- C7. With a non-integer token, an entity whose display name (with `None`
read as `''`, exactly as the loop does) equals the token in its original
case is returned: the lookup yields `found` of an exactly-matching entity,
never a substring-ambiguity failure. -/
theorem fuzzy_exact_name_short_circuits (tok : String) (lst : List Entity)
    (hint : pyInt tok = none) (hex : ∃ x ∈ lst, x.name.getD "" = tok) :
    ∃ y ∈ lst, FuzzyLookupItem tok lst = .found y ∧ y.name.getD "" = tok := by
  rw [show FuzzyLookupItem tok lst =
      (match pyInt tok with
       | some idd =>
         (match lst.find? (fun x => x.id == idd) with
          | some x => .found x
          | none => .idNotFound idd)
       | none => fuzzyNameScan tok (pyIsLower tok) [] lst) from rfl, hint]
  exact fuzzyNameScan_exact tok (pyIsLower tok) lst [] hex

/-- C7 witness: token `"Fathom"` against entities named `"Fathom King"` and
`"Fathom"`; the exact match is returned even though both names contain the
token. -/
theorem fuzzy_exact_name_short_circuits_witness :
    ∃ y ∈ [(⟨1, some "Fathom King"⟩ : Entity), ⟨2, some "Fathom"⟩],
      FuzzyLookupItem "Fathom" [⟨1, some "Fathom King"⟩, ⟨2, some "Fathom"⟩] = .found y ∧
        y.name.getD "" = "Fathom" :=
  fuzzy_exact_name_short_circuits "Fathom" [⟨1, some "Fathom King"⟩, ⟨2, some "Fathom"⟩]
    (by decide) ⟨⟨2, some "Fathom"⟩, by decide, by decide⟩

lemma fuzzyNameScan_no_exact (tok : String) :
    ∀ (l acc : List Entity), (∀ x ∈ l, x.name.getD "" ≠ tok) →
      fuzzyNameScan tok (pyIsLower tok) acc l = scanFinish tok (acc ++ nameMatches tok l) := by
  intro l
  induction l with
  | nil => intro acc _; rw [show fuzzyNameScan tok (pyIsLower tok) acc [] =
      scanFinish tok acc from rfl, show nameMatches tok [] = [] from rfl, List.append_nil]
  | cons x rest ih =>
    intro acc hex
    have hx : ¬ tok = x.name.getD "" := fun h =>
      hex x (List.mem_cons_self _ _) h.symm
    rw [show fuzzyNameScan tok (pyIsLower tok) acc (x :: rest) =
        (if tok = x.name.getD "" then .found x
         else if pyIn tok (if pyIsLower tok then pyLower (x.name.getD "") else x.name.getD "") then
           fuzzyNameScan tok (pyIsLower tok) (acc ++ [x]) rest
         else fuzzyNameScan tok (pyIsLower tok) acc rest) from rfl, if_neg hx]
    have hfold : (if pyIsLower tok then pyLower (x.name.getD "") else x.name.getD "") =
        foldedName tok x := by
      unfold foldedName
      rfl
    have hrest : ∀ x' ∈ rest, x'.name.getD "" ≠ tok := fun x' h => hex x' (List.mem_cons_of_mem _ h)
    have hcons : nameMatches tok (x :: rest) =
        if pyIn tok (foldedName tok x) then x :: nameMatches tok rest
        else nameMatches tok rest := by
      unfold nameMatches
      rw [List.filter_cons]
    by_cases hp : pyIn tok (foldedName tok x) = true
    · rw [hfold, if_pos hp, ih (acc ++ [x]) hrest]
      rw [hcons, if_pos hp, List.append_assoc]
      rfl
    · rw [hfold, if_neg hp, ih acc hrest]
      rw [hcons, if_neg hp]

/-- C8. With a non-integer token and no exact full-name match, the result is
decided by the entities whose name — case-folded exactly when the token is
entirely lower-case — contains the token as a substring: one match is
returned, zero fail with the not-found error naming the token, two or more
fail with the ambiguous error listing every matched entity's name. -/
theorem fuzzy_substring_trichotomy (tok : String) (lst : List Entity)
    (hint : pyInt tok = none)
    (hex : ∀ x ∈ lst, x.name.getD "" ≠ tok) :
    (nameMatches tok lst = [] → FuzzyLookupItem tok lst = .nameNotFound tok) ∧
    (∀ y, nameMatches tok lst = [y] → FuzzyLookupItem tok lst = .found y) ∧
    (2 ≤ (nameMatches tok lst).length →
      FuzzyLookupItem tok lst = .ambiguous tok ((nameMatches tok lst).map Entity.name)) := by
  have hscan : FuzzyLookupItem tok lst = scanFinish tok (nameMatches tok lst) := by
    rw [show FuzzyLookupItem tok lst =
        (match pyInt tok with
         | some idd =>
           (match lst.find? (fun x => x.id == idd) with
            | some x => .found x
            | none => .idNotFound idd)
         | none => fuzzyNameScan tok (pyIsLower tok) [] lst) from rfl, hint]
    rw [fuzzyNameScan_no_exact tok lst [] hex, List.nil_append]
  refine ⟨?_, ?_, ?_⟩
  · intro h0
    rw [hscan, h0]
    rfl
  · intro y h1
    rw [hscan, h1]
    rfl
  · intro h2
    obtain ⟨y, z, t, hm⟩ : ∃ y z t, nameMatches tok lst = y :: z :: t := by
      cases hm : nameMatches tok lst with
      | nil => rw [hm] at h2; simp at h2
      | cons y t =>
        cases t with
        | nil => rw [hm] at h2; simp at h2
        | cons z t' => exact ⟨y, z, t', rfl⟩
    rw [hscan, hm]
    rw [show scanFinish tok (y :: z :: t) = .ambiguous tok ((y :: z :: t).map Entity.name) from rfl,
      hm.symm]

/-- C8 witness: lower-case token `"abc"` against entities named `"ABC Shop"`
and `"abcdef"`: both substring-match case-insensitively, so the lookup fails
with the ambiguous error listing both names. -/
theorem fuzzy_substring_trichotomy_witness :
    FuzzyLookupItem "abc" [⟨1, some "ABC Shop"⟩, ⟨2, some "abcdef"⟩] =
      .ambiguous "abc" [some "ABC Shop", some "abcdef"] :=
  (fuzzy_substring_trichotomy "abc" [⟨1, some "ABC Shop"⟩, ⟨2, some "abcdef"⟩]
    (by decide) (by decide)).2.2 (by decide)

/-! ## Shop-availability aggregation invariants (C4, C5) -/

lemma addShopInfo_shopAreas (st : AggState) (group : ExchangeGroup) (area : Area) (g : Nat) :
    (AddShopInfo st group area).shopAreas g = st.shopAreas g ∨
    (area.id ≠ LIMBO ∧ area.id ∉ st.shopAreas group.id ∧ g = group.id ∧
      (AddShopInfo st group area).shopAreas g = st.shopAreas g ++ [area.id]) := by
  unfold AddShopInfo
  by_cases hl : area.id = LIMBO
  · rw [if_pos hl]
    exact .inl rfl
  · rw [if_neg hl]
    by_cases hmem : area.id ∈ st.shopAreas group.id
    · rw [if_pos hmem]
      exact .inl rfl
    · rw [if_neg hmem]
      by_cases hg : g = group.id
      · refine .inr ⟨hl, hmem, hg, ?_⟩
        show (if g = group.id then st.shopAreas group.id ++ [area.id] else st.shopAreas g) = _
        rw [if_pos hg, hg]
      · refine .inl ?_
        show (if g = group.id then st.shopAreas group.id ++ [area.id] else st.shopAreas g) = _
        rw [if_neg hg]

lemma addShopInfo_good {st : AggState} (group : ExchangeGroup) (area : Area)
    (h : GoodLists st) : GoodLists (AddShopInfo st group area) := by
  intro g
  rcases addShopInfo_shopAreas st group area g with heq | ⟨hl, hmem, hg, heq⟩
  · rw [heq]
    exact h g
  · rw [heq]
    rw [hg]
    refine ⟨?_, ?_⟩
    · intro hmem2
      rcases List.mem_append.mp hmem2 with h1 | h1
      · exact (h group.id).1 h1
      · exact hl (List.mem_singleton.mp h1).symm
    · refine List.Nodup.append (h group.id).2 (List.nodup_singleton _) ?_
      intro a2 ha ha'
      rw [List.mem_singleton.mp ha'] at ha
      exact hmem ha

lemma portStep_good {areas : List Area} {smap : Nat → Option ExchangeGroup}
    {st : AggState} {p : Port} {st' : AggState}
    (h : portStep areas smap st p = .ok st') (hg : GoodLists st) : GoodLists st' := by
  unfold portStep at h
  cases hla : lookupArea areas p.areaId with
  | none => rw [hla] at h; cases h
  | some area =>
    rw [hla] at h
    cases hsm : smap p.settingId with
    | none =>
      rw [hsm] at h
      cases h
      exact hg
    | some group =>
      rw [hsm] at h
      cases h
      exact addShopInfo_good group area hg

lemma portsFold_good {areas : List Area} {smap : Nat → Option ExchangeGroup} :
    ∀ {l : List Port} {st st' : AggState},
      portsFold areas smap l st = .ok st' → GoodLists st → GoodLists st' := by
  intro l
  induction l with
  | nil => intro st st' h hg; cases h; exact hg
  | cons p rest ih =>
    intro st st' h hg
    rw [show portsFold areas smap (p :: rest) st =
        (match portStep areas smap st p with
         | .error e => .error e
         | .ok st1 => portsFold areas smap rest st1) from rfl] at h
    cases hp : portStep areas smap st p with
    | error e => rw [hp] at h; cases h
    | ok st1 =>
      rw [hp] at h
      exact ih h (portStep_good hp hg)

lemma tilesFold_good {areas : List Area} {smap : Nat → Option ExchangeGroup} :
    ∀ {l : List Tile} {st st' : AggState},
      tilesFold areas smap l st = .ok st' → GoodLists st → GoodLists st' := by
  intro l
  induction l with
  | nil => intro st st' h hg; cases h; exact hg
  | cons t rest ih =>
    intro st st' h hg
    rw [show tilesFold areas smap (t :: rest) st =
        (match t.tiles with
         | [] => tilesFold areas smap rest st
         | entry :: _ =>
           match portsFold areas smap entry.portData st with
           | .error e => .error e
           | .ok st1 => tilesFold areas smap rest st1) from rfl] at h
    cases ht : t.tiles with
    | nil =>
      rw [ht] at h
      exact ih h hg
    | cons entry more =>
      rw [ht] at h
      replace h : (match portsFold areas smap entry.portData st with
          | .error e => (.error e : Except ShopError AggState)
          | .ok st1 => tilesFold areas smap rest st1) = .ok st' := h
      cases hp : portsFold areas smap entry.portData st with
      | error e => rw [hp] at h; cases h
      | ok st1 =>
        rw [hp] at h
        exact ih h (portsFold_good hp hg)

lemma areaIdsFold_good {areas : List Area} {group : ExchangeGroup} :
    ∀ {l : List Nat} {st st' : AggState},
      areaIdsFold areas group l st = .ok st' → GoodLists st → GoodLists st' := by
  intro l
  induction l with
  | nil => intro st st' h hg; cases h; exact hg
  | cons i rest ih =>
    intro st st' h hg
    rw [show areaIdsFold areas group (i :: rest) st =
        (match lookupArea areas i with
         | none => .error (.missingArea i)
         | some area => areaIdsFold areas group rest (AddShopInfo st group area)) from rfl] at h
    cases hla : lookupArea areas i with
    | none => rw [hla] at h; cases h
    | some area =>
      rw [hla] at h
      exact ih h (addShopInfo_good group area hg)

lemma outcomesFold_good {areas : List Area} {smap : Nat → Option ExchangeGroup}
    {eventAreaIds : List Nat} :
    ∀ {l : List Outcome} {st st' : AggState},
      outcomesFold areas smap eventAreaIds l st = .ok st' → GoodLists st → GoodLists st' := by
  intro l
  induction l with
  | nil => intro st st' h hg; cases h; exact hg
  | cons o rest ih =>
    intro st st' h hg
    rw [show outcomesFold areas smap eventAreaIds (o :: rest) st =
        (match o.switchToSetting with
         | none => outcomesFold areas smap eventAreaIds rest st
         | some sid =>
           match smap sid with
           | none => .error (.missingSetting sid)
           | some group =>
             match areaIdsFold areas group eventAreaIds st with
             | .error e => .error e
             | .ok st1 => outcomesFold areas smap eventAreaIds rest st1) from rfl] at h
    cases ho : o.switchToSetting with
    | none =>
      rw [ho] at h
      exact ih h hg
    | some sid =>
      rw [ho] at h
      replace h : (match smap sid with
          | none => (.error (.missingSetting sid) : Except ShopError AggState)
          | some group =>
            match areaIdsFold areas group eventAreaIds st with
            | .error e => .error e
            | .ok st1 => outcomesFold areas smap eventAreaIds rest st1) = .ok st' := h
      cases hsm : smap sid with
      | none => rw [hsm] at h; cases h
      | some group =>
        rw [hsm] at h
        replace h : (match areaIdsFold areas group eventAreaIds st with
            | .error e => (.error e : Except ShopError AggState)
            | .ok st1 => outcomesFold areas smap eventAreaIds rest st1) = .ok st' := h
        cases ha : areaIdsFold areas group eventAreaIds st with
        | error e => rw [ha] at h; cases h
        | ok st1 =>
          rw [ha] at h
          exact ih h (areaIdsFold_good ha hg)

lemma eventsFold_good {areas : List Area} {smap : Nat → Option ExchangeGroup}
    {eventAreas : Nat → List Nat} :
    ∀ {l : List Event} {st st' : AggState},
      eventsFold areas smap eventAreas l st = .ok st' → GoodLists st → GoodLists st' := by
  intro l
  induction l with
  | nil => intro st st' h hg; cases h; exact hg
  | cons ev rest ih =>
    intro st st' h hg
    rw [show eventsFold areas smap eventAreas (ev :: rest) st =
        (match ForEachBranch ev with
         | .error e => .error (.nested e)
         | .ok outs =>
           match outcomesFold areas smap (eventAreas ev.id) outs st with
           | .error e => .error e
           | .ok st1 => eventsFold areas smap eventAreas rest st1) from rfl] at h
    cases hfe : ForEachBranch ev with
    | error e => rw [hfe] at h; cases h
    | ok outs =>
      rw [hfe] at h
      replace h : (match outcomesFold areas smap (eventAreas ev.id) outs st with
          | .error e => (.error e : Except ShopError AggState)
          | .ok st1 => eventsFold areas smap eventAreas rest st1) = .ok st' := h
      cases hoc : outcomesFold areas smap (eventAreas ev.id) outs st with
      | error e => rw [hoc] at h; cases h
      | ok st1 =>
        rw [hoc] at h
        exact ih h (outcomesFold_good hoc hg)

lemma aggregate_good {areas : List Area} {exchanges : List ExchangeGroup}
    {tiles : List Tile} {events : List Event} {eventAreas : Nat → List Nat} {st : AggState}
    (h : aggregate areas exchanges tiles events eventAreas = .ok st) : GoodLists st := by
  unfold aggregate at h
  cases ht : tilesFold areas (settingsMap exchanges) tiles ⟨fun _ => [], fun _ => none⟩ with
  | error e => rw [ht] at h; cases h
  | ok st1 =>
    rw [ht] at h
    exact eventsFold_good h
      (tilesFold_good ht (fun g => ⟨List.not_mem_nil _, List.nodup_nil⟩))

/-- C4. A completed shop-availability aggregation leaves no ExchangeGroup's
accessible-areas list containing the Limbo sentinel area, whether areas
arrived from the static port phase or the dynamic switch-to-setting
phase: every append goes through the `AddShopInfo` Limbo guard. -/
theorem shop_areas_limbo_free (areas : List Area) (exchanges : List ExchangeGroup)
    (tiles : List Tile) (events : List Event) (eventAreas : Nat → List Nat)
    (st : AggState) (h : aggregate areas exchanges tiles events eventAreas = .ok st)
    (g : Nat) : LIMBO ∉ st.shopAreas g :=
  (aggregate_good h g).1

/-- C4 witness: a port placement targets Limbo through setting 11 and the
dynamic phase's event switches to setting 11 from an event whose derived
areas include Limbo; the group's list still never contains Limbo. -/
theorem shop_areas_limbo_free_witness :
    ∃ st, aggregate wAreas wExchanges wTiles wEvents (fun _ => [101956, 5]) = .ok st ∧
      LIMBO ∉ st.shopAreas 100 :=
  ⟨_, rfl, shop_areas_limbo_free wAreas wExchanges wTiles wEvents
    (fun _ => [101956, 5]) _ rfl 100⟩

/-- C5. A completed shop-availability aggregation leaves every
ExchangeGroup's accessible-areas list duplicate-free, even when the same
area is discovered by both phases or repeatedly within one phase: every
append goes through the `AddShopInfo` membership guard. -/
theorem shop_areas_duplicate_free (areas : List Area) (exchanges : List ExchangeGroup)
    (tiles : List Tile) (events : List Event) (eventAreas : Nat → List Nat)
    (st : AggState) (h : aggregate areas exchanges tiles events eventAreas = .ok st)
    (g : Nat) : (st.shopAreas g).Nodup :=
  (aggregate_good h g).2

/-- C5 witness: area 5 is ported twice in the static phase and added again
by the dynamic phase; the group's list still holds it once. -/
theorem shop_areas_duplicate_free_witness :
    ∃ st, aggregate wAreas wExchanges wTiles wEvents (fun _ => [5]) = .ok st ∧
      (st.shopAreas 100).Nodup ∧ st.shopAreas 100 = [5] :=
  ⟨_, rfl, shop_areas_duplicate_free wAreas wExchanges wTiles wEvents
    (fun _ => [5]) _ rfl 100, by decide⟩

/-! ## Asymmetric treatment of an unjoined setting id (C10) -/

/-- C10. A setting id absent from the `settings_map` join map is handled
asymmetrically by the two aggregation phases: the static phase's guarded
check silently skips the port (returning normally with the group lists
untouched), while the dynamic phase's unguarded `settings_map[setting[ID]]`
lookup raises and aborts the run at the offending outcome. -/
theorem setting_join_asymmetry (areas : List Area) (exchanges : List ExchangeGroup)
    (st st2 : AggState) (port : Port) (a : Area) (o : Outcome) (rest : List Outcome)
    (sid : Nat) (eventAreaIds : List Nat)
    (harea : lookupArea areas port.areaId = some a)
    (hmiss : settingsMap exchanges port.settingId = none)
    (hsw : o.switchToSetting = some sid)
    (hmiss2 : settingsMap exchanges sid = none) :
    (∃ st', portStep areas (settingsMap exchanges) st port = .ok st' ∧
        st'.shopAreas = st.shopAreas) ∧
    outcomesFold areas (settingsMap exchanges) eventAreaIds (o :: rest) st2 =
      .error (.missingSetting sid) := by
  constructor
  · have hstep : portStep areas (settingsMap exchanges) st port =
        .ok { st with
          areaSub := fun j => if j = a.id then some port.subsurface else st.areaSub j } := by
      unfold portStep
      rw [harea, hmiss]
    exact ⟨_, hstep, rfl⟩
  · rw [show outcomesFold areas (settingsMap exchanges) eventAreaIds (o :: rest) st2 =
        (match o.switchToSetting with
         | none => outcomesFold areas (settingsMap exchanges) eventAreaIds rest st2
         | some s =>
           match settingsMap exchanges s with
           | none => .error (.missingSetting s)
           | some group =>
             match areaIdsFold areas group eventAreaIds st2 with
             | .error e => .error e
             | .ok st1 => outcomesFold areas (settingsMap exchanges) eventAreaIds rest st1)
        from rfl, hsw]
    show (match settingsMap exchanges sid with
      | none => (.error (.missingSetting sid) : Except ShopError AggState)
      | some group =>
        match areaIdsFold areas group eventAreaIds st2 with
        | .error e => .error e
        | .ok st1 => outcomesFold areas (settingsMap exchanges) eventAreaIds rest st1) =
      .error (.missingSetting sid)
    rw [hmiss2]

/-- C10 witness: setting 99 belongs to no group; the static phase completes
normally on a port using it while the dynamic phase aborts on an outcome
switching to it. -/
theorem setting_join_asymmetry_witness :
    (∃ st', portStep wAreas (settingsMap wExchanges)
        ⟨fun _ => [], fun _ => none⟩ ⟨5, 99, true⟩ = .ok st' ∧
        st'.shopAreas = (fun _ => ([] : List Nat))) ∧
    outcomesFold wAreas (settingsMap wExchanges) [5] [.mk [] none (some 99)]
        ⟨fun _ => [], fun _ => none⟩ = .error (.missingSetting 99) :=
  setting_join_asymmetry wAreas wExchanges ⟨fun _ => [], fun _ => none⟩
    ⟨fun _ => [], fun _ => none⟩ ⟨5, 99, true⟩ ⟨5, some "A"⟩ (.mk [] none (some 99)) []
    99 [5] (by decide) (by decide) rfl (by decide)

/-! ## Area-reachability propagation: basic lemmas -/

lemma lookupEvent_mem {events : List Event} {i : Nat} {e : Event}
    (h : lookupEvent events i = some e) : e ∈ events :=
  List.mem_reverse.mp (List.mem_of_find?_eq_some h)

lemma resolveLinks_mem {events : List Event} :
    ∀ {ids : List Nat} {l : List Event}, resolveLinks events ids = .ok l →
      ∀ e ∈ l, e ∈ events := by
  intro ids
  induction ids with
  | nil =>
    intro l h e he
    cases h
    exact absurd he (List.not_mem_nil e)
  | cons i rest ih =>
    intro l h e he
    rw [show resolveLinks events (i :: rest) =
        (match lookupEvent events i with
         | none => .error (.missingEvent i)
         | some e0 =>
           match resolveLinks events rest with
           | .error err => .error err
           | .ok l0 => .ok (e0 :: l0)) from rfl] at h
    cases hle : lookupEvent events i with
    | none => rw [hle] at h; cases h
    | some e0 =>
      rw [hle] at h
      replace h : (match resolveLinks events rest with
          | .error err => (.error err : Except PropError (List Event))
          | .ok l0 => .ok (e0 :: l0)) = .ok l := h
      cases hrl : resolveLinks events rest with
      | error err => rw [hrl] at h; cases h
      | ok l0 =>
        rw [hrl] at h
        cases h
        rcases List.mem_cons.mp he with h1 | h1
        · rw [h1]
          exact lookupEvent_mem hle
        · exact ih hrl e h1

lemma resolveLinks_complete {events : List Event} :
    ∀ {ids : List Nat} {l : List Event}, resolveLinks events ids = .ok l →
      ∀ i ∈ ids, ∀ e, lookupEvent events i = some e → e ∈ l := by
  intro ids
  induction ids with
  | nil =>
    intro l _ i hi
    exact absurd hi (List.not_mem_nil i)
  | cons i0 rest ih =>
    intro l h i hi e hle
    rw [show resolveLinks events (i0 :: rest) =
        (match lookupEvent events i0 with
         | none => .error (.missingEvent i0)
         | some e0 =>
           match resolveLinks events rest with
           | .error err => .error err
           | .ok l0 => .ok (e0 :: l0)) from rfl] at h
    cases hle0 : lookupEvent events i0 with
    | none => rw [hle0] at h; cases h
    | some e0 =>
      rw [hle0] at h
      replace h : (match resolveLinks events rest with
          | .error err => (.error err : Except PropError (List Event))
          | .ok l0 => .ok (e0 :: l0)) = .ok l := h
      cases hrl : resolveLinks events rest with
      | error err => rw [hrl] at h; cases h
      | ok l0 =>
        rw [hrl] at h
        cases h
        rcases List.mem_cons.mp hi with h1 | h1
        · rw [h1] at hle
          rw [hle0] at hle
          cases hle
          exact List.mem_cons_self _ _
        · exact List.mem_cons_of_mem _ (ih hrl i h1 e hle)

lemma resolveLinks_length {events : List Event} :
    ∀ {ids : List Nat} {l : List Event}, resolveLinks events ids = .ok l →
      l.length = ids.length := by
  intro ids
  induction ids with
  | nil =>
    intro l h
    cases h
    rfl
  | cons i rest ih =>
    intro l h
    rw [show resolveLinks events (i :: rest) =
        (match lookupEvent events i with
         | none => .error (.missingEvent i)
         | some e0 =>
           match resolveLinks events rest with
           | .error err => .error err
           | .ok l0 => .ok (e0 :: l0)) from rfl] at h
    cases hle : lookupEvent events i with
    | none => rw [hle] at h; cases h
    | some e0 =>
      rw [hle] at h
      replace h : (match resolveLinks events rest with
          | .error err => (.error err : Except PropError (List Event))
          | .ok l0 => .ok (e0 :: l0)) = .ok l := h
      cases hrl : resolveLinks events rest with
      | error err => rw [hrl] at h; cases h
      | ok l0 =>
        rw [hrl] at h
        cases h
        rw [List.length_cons, ih hrl]
        rfl

lemma markArea_mono (st : Nat → List Nat) (eid limitId j v : Nat) (hv : v ∈ st j) :
    v ∈ markArea st eid limitId j := by
  simp only [markArea]
  split
  · exact List.mem_append_left _ hv
  · exact hv

lemma markArea_self (st : Nat → List Nat) (eid limitId : Nat) :
    limitId ∈ markArea st eid limitId eid := by
  simp only [markArea, if_pos rfl]
  exact List.mem_append_right _ (List.mem_singleton.mpr rfl)

lemma markArea_mem {st : Nat → List Nat} {eid limitId j v : Nat}
    (h : v ∈ markArea st eid limitId j) : v ∈ st j ∨ v = limitId := by
  simp only [markArea] at h
  by_cases hij : j = eid
  · rw [if_pos hij] at h
    rcases List.mem_append.mp h with h1 | h1
    · exact .inl h1
    · exact .inr (List.mem_singleton.mp h1)
  · rw [if_neg hij] at h
    exact .inl h

lemma markArea_other {st : Nat → List Nat} {eid limitId j : Nat} (hij : j ≠ eid) :
    markArea st eid limitId j = st j := by
  simp only [markArea, if_neg hij]

lemma dfsLoop_zero (events : List Event) (limitId : Nat) (stack : List Event)
    (st : Nat → List Nat) : dfsLoop events limitId 0 stack st = .outOfFuel := rfl

lemma dfsLoop_nil (events : List Event) (limitId fuel : Nat) (st : Nat → List Nat) :
    dfsLoop events limitId (fuel + 1) [] st = .ok st := rfl

lemma dfsLoop_cons (events : List Event) (limitId fuel : Nat) (event : Event)
    (rest : List Event) (st : Nat → List Nat) :
    dfsLoop events limitId (fuel + 1) (event :: rest) st =
      if limitId ∈ st event.id then dfsLoop events limitId fuel rest st
      else
        match ForEachBranch event with
        | .error e => .err (.nestedBranch e)
        | .ok outs =>
          match resolveLinks events (linkIds outs) with
          | .error e => .err e
          | .ok pushed =>
            dfsLoop events limitId fuel (pushed.reverse ++ rest)
              (markArea st event.id limitId) := rfl

lemma dfsLoop_mono {events : List Event} {limitId : Nat} :
    ∀ {fuel : Nat} {stack : List Event} {st st' : Nat → List Nat},
      dfsLoop events limitId fuel stack st = .ok st' → ∀ j v, v ∈ st j → v ∈ st' j := by
  intro fuel
  induction fuel with
  | zero =>
    intro stack st st' h
    rw [dfsLoop_zero] at h
    cases h
  | succ n ih =>
    intro stack st st' h j v hv
    cases stack with
    | nil =>
      rw [dfsLoop_nil] at h
      cases h
      exact hv
    | cons event rest =>
      rw [dfsLoop_cons] at h
      by_cases hm : limitId ∈ st event.id
      · rw [if_pos hm] at h
        exact ih h j v hv
      · rw [if_neg hm] at h
        cases hfe : ForEachBranch event with
        | error e => rw [hfe] at h; cases h
        | ok outs =>
          rw [hfe] at h
          replace h : (match resolveLinks events (linkIds outs) with
              | .error e => (.err e : DfsResult)
              | .ok pushed =>
                dfsLoop events limitId n (pushed.reverse ++ rest)
                  (markArea st event.id limitId)) = .ok st' := h
          cases hrl : resolveLinks events (linkIds outs) with
          | error e => rw [hrl] at h; cases h
          | ok pushed =>
            rw [hrl] at h
            exact ih h j v (markArea_mono st event.id limitId j v hv)

lemma dfsLoop_adds_only {events : List Event} {limitId : Nat} :
    ∀ {fuel : Nat} {stack : List Event} {st st' : Nat → List Nat},
      dfsLoop events limitId fuel stack st = .ok st' →
      ∀ j v, v ∈ st' j → v ∈ st j ∨ v = limitId := by
  intro fuel
  induction fuel with
  | zero =>
    intro stack st st' h
    rw [dfsLoop_zero] at h
    cases h
  | succ n ih =>
    intro stack st st' h j v hv
    cases stack with
    | nil =>
      rw [dfsLoop_nil] at h
      cases h
      exact .inl hv
    | cons event rest =>
      rw [dfsLoop_cons] at h
      by_cases hm : limitId ∈ st event.id
      · rw [if_pos hm] at h
        exact ih h j v hv
      · rw [if_neg hm] at h
        cases hfe : ForEachBranch event with
        | error e => rw [hfe] at h; cases h
        | ok outs =>
          rw [hfe] at h
          replace h : (match resolveLinks events (linkIds outs) with
              | .error e => (.err e : DfsResult)
              | .ok pushed =>
                dfsLoop events limitId n (pushed.reverse ++ rest)
                  (markArea st event.id limitId)) = .ok st' := h
          cases hrl : resolveLinks events (linkIds outs) with
          | error e => rw [hrl] at h; cases h
          | ok pushed =>
            rw [hrl] at h
            rcases ih h j v hv with h1 | h1
            · exact markArea_mem h1
            · exact .inr h1

lemma dfsLoop_marks_head {events : List Event} {limitId fuel : Nat} {event : Event}
    {rest : List Event} {st st' : Nat → List Nat}
    (h : dfsLoop events limitId fuel (event :: rest) st = .ok st') :
    limitId ∈ st' event.id := by
  cases fuel with
  | zero =>
    rw [dfsLoop_zero] at h
    cases h
  | succ n =>
    rw [dfsLoop_cons] at h
    by_cases hm : limitId ∈ st event.id
    · rw [if_pos hm] at h
      exact dfsLoop_mono h event.id limitId hm
    · rw [if_neg hm] at h
      cases hfe : ForEachBranch event with
      | error e => rw [hfe] at h; cases h
      | ok outs =>
        rw [hfe] at h
        replace h : (match resolveLinks events (linkIds outs) with
            | .error e => (.err e : DfsResult)
            | .ok pushed =>
              dfsLoop events limitId n (pushed.reverse ++ rest)
                (markArea st event.id limitId)) = .ok st' := h
        cases hrl : resolveLinks events (linkIds outs) with
        | error e => rw [hrl] at h; cases h
        | ok pushed =>
          rw [hrl] at h
          exact dfsLoop_mono h event.id limitId (markArea_self st event.id limitId)

lemma propagateAux_nil (events : List Event) (fuel : Nat) (st : Nat → List Nat) :
    propagateAux events fuel [] st = .ok st := rfl

lemma propagateAux_cons (events : List Event) (fuel : Nat) (x : Event)
    (rest : List Event) (st : Nat → List Nat) :
    propagateAux events fuel (x :: rest) st =
      (match x.limitedToArea with
       | none => propagateAux events fuel rest st
       | some limitId =>
         match dfsLoop events limitId fuel [x] st with
         | .ok st' => propagateAux events fuel rest st'
         | .err e => .err e
         | .outOfFuel => .outOfFuel) := rfl

lemma propagateAux_mono {events : List Event} {fuel : Nat} :
    ∀ {l : List Event} {st st' : Nat → List Nat},
      propagateAux events fuel l st = .ok st' → ∀ j v, v ∈ st j → v ∈ st' j := by
  intro l
  induction l with
  | nil =>
    intro st st' h j v hv
    rw [propagateAux_nil] at h
    cases h
    exact hv
  | cons x rest ih =>
    intro st st' h j v hv
    rw [propagateAux_cons] at h
    cases hx : x.limitedToArea with
    | none =>
      rw [hx] at h
      exact ih h j v hv
    | some limitId =>
      rw [hx] at h
      replace h : (match dfsLoop events limitId fuel [x] st with
          | .ok st1 => propagateAux events fuel rest st1
          | .err e => (.err e : DfsResult)
          | .outOfFuel => .outOfFuel) = .ok st' := h
      cases hd : dfsLoop events limitId fuel [x] st with
      | ok st1 =>
        rw [hd] at h
        exact ih h j v (dfsLoop_mono hd j v hv)
      | err e => rw [hd] at h; cases h
      | outOfFuel => rw [hd] at h; cases h

lemma propagateAux_seed {events : List Event} {fuel : Nat} :
    ∀ {l : List Event} {st st' : Nat → List Nat},
      propagateAux events fuel l st = .ok st' →
      ∀ e ∈ l, ∀ a, e.limitedToArea = some a → a ∈ st' e.id := by
  intro l
  induction l with
  | nil =>
    intro st st' _ e he
    exact absurd he (List.not_mem_nil e)
  | cons x rest ih =>
    intro st st' h e he a ha
    rw [propagateAux_cons] at h
    rcases List.mem_cons.mp he with h1 | h1
    · subst h1
      rw [ha] at h
      replace h : (match dfsLoop events a fuel [e] st with
          | .ok st1 => propagateAux events fuel rest st1
          | .err e' => (.err e' : DfsResult)
          | .outOfFuel => .outOfFuel) = .ok st' := h
      cases hd : dfsLoop events a fuel [e] st with
      | ok st1 =>
        rw [hd] at h
        exact propagateAux_mono h e.id a (dfsLoop_marks_head hd)
      | err e' => rw [hd] at h; cases h
      | outOfFuel => rw [hd] at h; cases h
    · cases hx : x.limitedToArea with
      | none =>
        rw [hx] at h
        exact ih h e h1 a ha
      | some limitId =>
        rw [hx] at h
        replace h : (match dfsLoop events limitId fuel [x] st with
            | .ok st1 => propagateAux events fuel rest st1
            | .err e' => (.err e' : DfsResult)
            | .outOfFuel => .outOfFuel) = .ok st' := h
        cases hd : dfsLoop events limitId fuel [x] st with
        | ok st1 =>
          rw [hd] at h
          exact ih h e h1 a ha
        | err e' => rw [hd] at h; cases h
        | outOfFuel => rw [hd] at h; cases h

/-- C2. Every event that declares an origin area ends the propagation phase
with that area's id in its own derived reachable-area list: the seed event
itself is tagged. -/
theorem origin_area_recorded_on_seed (events : List Event) (st : Nat → List Nat)
    (e : Event) (a : Nat) (hok : propagate events = .ok st) (he : e ∈ events)
    (ha : e.limitedToArea = some a) : a ∈ st e.id :=
  propagateAux_seed hok e he a ha

/-- C2 witness: a single origin-restricted event (id 3, origin area 9) is
tagged with its own origin. -/
theorem origin_area_recorded_on_seed_witness :
    ∃ st, propagate seedEvents = .ok st ∧ 9 ∈ st 3 :=
  ⟨_, rfl, origin_area_recorded_on_seed seedEvents _ ⟨3, some 9, []⟩ 9 rfl
    (List.mem_singleton.mpr rfl) rfl⟩

/-! ## Closure of the final state under links (towards C1) -/

lemma event_id_inj {events : List Event} (hnd : (events.map Event.id).Nodup)
    {e1 e2 : Event} (h1 : e1 ∈ events) (h2 : e2 ∈ events) (hid : e1.id = e2.id) :
    e1 = e2 :=
  List.inj_on_of_nodup_map hnd h1 h2 hid

lemma dfsLoop_inv {events : List Event} {limitId : Nat}
    (hnd : (events.map Event.id).Nodup) :
    ∀ {fuel : Nat} {stack : List Event} {st st' : Nat → List Nat},
      (∀ e ∈ stack, e ∈ events) → LoopInv events limitId st stack →
      dfsLoop events limitId fuel stack st = .ok st' →
      LoopInv events limitId st' [] := by
  intro fuel
  induction fuel with
  | zero =>
    intro stack st st' _ _ h
    rw [dfsLoop_zero] at h
    cases h
  | succ n ih =>
    intro stack st st' hsub hinv h
    cases stack with
    | nil =>
      rw [dfsLoop_nil] at h
      cases h
      exact hinv
    | cons event rest =>
      rw [dfsLoop_cons] at h
      by_cases hm : limitId ∈ st event.id
      · rw [if_pos hm] at h
        refine ih (fun e he => hsub e (List.mem_cons_of_mem _ he)) ?_ h
        intro e1 he1 hm1 e2 hl
        rcases hinv e1 he1 hm1 e2 hl with h1 | h1
        · exact .inl h1
        · rcases List.mem_cons.mp h1 with h2 | h2
          · subst h2
            exact .inl hm
          · exact .inr h2
      · rw [if_neg hm] at h
        cases hfe : ForEachBranch event with
        | error e => rw [hfe] at h; cases h
        | ok outs =>
          rw [hfe] at h
          replace h : (match resolveLinks events (linkIds outs) with
              | .error e => (.err e : DfsResult)
              | .ok pushed =>
                dfsLoop events limitId n (pushed.reverse ++ rest)
                  (markArea st event.id limitId)) = .ok st' := h
          cases hrl : resolveLinks events (linkIds outs) with
          | error e => rw [hrl] at h; cases h
          | ok pushed =>
            rw [hrl] at h
            have hevent : event ∈ events := hsub event (List.mem_cons_self _ _)
            refine ih ?_ ?_ h
            · intro e he
              rcases List.mem_append.mp he with h1 | h1
              · exact resolveLinks_mem hrl e (List.mem_reverse.mp h1)
              · exact hsub e (List.mem_cons_of_mem _ h1)
            · intro e1 he1 hm1 e2 hl
              by_cases hid : e1.id = event.id
              · have he1e : e1 = event := event_id_inj hnd he1 hevent hid
                subst he1e
                obtain ⟨outs', hfe', o, ho, lnk, hol, hle⟩ := hl
                rw [hfe] at hfe'
                cases hfe'
                have hlnk : lnk ∈ linkIds outs := List.mem_filterMap.mpr ⟨o, ho, hol⟩
                exact .inr (List.mem_append_left _
                  (List.mem_reverse.mpr (resolveLinks_complete hrl lnk hlnk e2 hle)))
              · rw [markArea_other hid] at hm1
                rcases hinv e1 he1 hm1 e2 hl with h1 | h1
                · exact .inl (markArea_mono st event.id limitId e2.id limitId h1)
                · rcases List.mem_cons.mp h1 with h2 | h2
                  · rw [h2]
                    exact .inl (markArea_self st event.id limitId)
                  · exact .inr (List.mem_append_right _ h2)

lemma loopInv_nil_closed {events : List Event} {limitId : Nat} {st : Nat → List Nat}
    (h : LoopInv events limitId st []) : Closed events limitId st := by
  intro e1 he1 hm e2 hl
  rcases h e1 he1 hm e2 hl with h1 | h1
  · exact h1
  · exact absurd h1 (List.not_mem_nil e2)

lemma dfsLoop_preserves_closed {events : List Event} {limitId c : Nat} (hne : c ≠ limitId)
    {fuel : Nat} {stack : List Event} {st st' : Nat → List Nat}
    (h : dfsLoop events limitId fuel stack st = .ok st')
    (hc : Closed events c st) : Closed events c st' := by
  intro e1 he1 hm e2 hl
  rcases dfsLoop_adds_only h e1.id c hm with h1 | h1
  · exact dfsLoop_mono h e2.id c (hc e1 he1 h1 e2 hl)
  · exact absurd h1 hne

lemma propagateAux_closed {events : List Event} {fuel : Nat}
    (hnd : (events.map Event.id).Nodup) :
    ∀ {l : List Event} {st st' : Nat → List Nat},
      (∀ e ∈ l, e ∈ events) → (∀ c, Closed events c st) →
      propagateAux events fuel l st = .ok st' → ∀ c, Closed events c st' := by
  intro l
  induction l with
  | nil =>
    intro st st' _ hcl h
    rw [propagateAux_nil] at h
    cases h
    exact hcl
  | cons x rest ih =>
    intro st st' hsub hcl h
    rw [propagateAux_cons] at h
    cases hx : x.limitedToArea with
    | none =>
      rw [hx] at h
      exact ih (fun e he => hsub e (List.mem_cons_of_mem _ he)) hcl h
    | some limitId =>
      rw [hx] at h
      replace h : (match dfsLoop events limitId fuel [x] st with
          | .ok st1 => propagateAux events fuel rest st1
          | .err e => (.err e : DfsResult)
          | .outOfFuel => .outOfFuel) = .ok st' := h
      cases hd : dfsLoop events limitId fuel [x] st with
      | ok st1 =>
        rw [hd] at h
        refine ih (fun e he => hsub e (List.mem_cons_of_mem _ he)) ?_ h
        intro c
        by_cases hc : c = limitId
        · subst hc
          refine loopInv_nil_closed (dfsLoop_inv hnd ?_ ?_ hd)
          · intro e he
            rw [List.mem_singleton.mp he]
            exact hsub x (List.mem_cons_self _ _)
          · intro e1 he1 hm1 e2 hl
            exact .inl (hcl c e1 he1 hm1 e2 hl)
        · exact dfsLoop_preserves_closed hc hd (hcl c)
      | err e => rw [hd] at h; cases h
      | outOfFuel => rw [hd] at h; cases h

/-- C1. An event `e2` reachable from an origin-declaring event `e1` by any
chain of non-absent `link to event` references ends the propagation phase
with `e1`'s origin-area id in its derived reachable-area list.  (Event ids
are assumed unique in their table, a stated invariant of the data.) -/
theorem reachable_event_tagged_with_origin (events : List Event) (st : Nat → List Nat)
    (e1 e2 : Event) (a : Nat)
    (hnd : (events.map Event.id).Nodup)
    (hok : propagate events = .ok st)
    (h1 : e1 ∈ events) (ha : e1.limitedToArea = some a)
    (hr : ReachableFrom events e1 e2) : a ∈ st e2.id := by
  have hclosed : ∀ c, Closed events c st :=
    propagateAux_closed hnd (fun e he => he)
      (fun c e _ hm => absurd hm (List.not_mem_nil c)) hok
  have hmain : a ∈ st e2.id ∧ e2 ∈ events := by
    induction hr with
    | refl => exact ⟨propagateAux_seed hok e1 h1 a ha, h1⟩
    | step hr' hl ih =>
      obtain ⟨hm, hmem⟩ := ih
      refine ⟨hclosed a _ hmem hm _ hl, ?_⟩
      obtain ⟨outs, _, o, _, lnk, _, hle⟩ := hl
      exact lookupEvent_mem hle
  exact hmain.1

/-- C1 witness: event 1 declares origin area 7 and links to event 2; after
propagation event 2's derived list contains 7. -/
theorem reachable_event_tagged_with_origin_witness :
    ∃ st, propagate chainEvents = .ok st ∧ 7 ∈ st 2 :=
  ⟨_, rfl, reachable_event_tagged_with_origin chainEvents _
    ⟨1, some 7, [Branch.mk (some (.mk [] (some 2) none)) none none none]⟩
    ⟨2, none, []⟩ 7 (by decide) rfl (List.mem_cons_self _ _) rfl
    (.step .refl ⟨[.mk [] (some 2) none], rfl, .mk [] (some 2) none,
      List.mem_singleton.mpr rfl, 2, rfl, rfl⟩)⟩

/-! ## Termination of the traversal (C3) -/

lemma eventLinkCount_le_max {events : List Event} {e : Event} (he : e ∈ events) :
    eventLinkCount e ≤ maxLinkCount events := by
  induction events with
  | nil => exact absurd he (List.not_mem_nil e)
  | cons x rest ih =>
    rcases List.mem_cons.mp he with h | h
    · rw [h]
      exact le_max_left _ _
    · exact le_trans (ih h) (le_max_right _ _)

lemma unmarkedCount_le (events : List Event) (limitId : Nat) (st : Nat → List Nat) :
    unmarkedCount events limitId st ≤ (events.map Event.id).dedup.length :=
  List.length_filter_le _ _

lemma unmarked_decrease {events : List Event} {limitId : Nat} {st : Nat → List Nat}
    {e : Event} (he : e ∈ events) (hm : limitId ∉ st e.id) :
    unmarkedCount events limitId (markArea st e.id limitId) + 1 ≤
      unmarkedCount events limitId st := by
  unfold unmarkedCount
  have hmem : e.id ∈ (events.map Event.id).dedup :=
    List.mem_dedup.mpr (List.mem_map_of_mem Event.id he)
  have hsub : List.Sublist
      ((events.map Event.id).dedup.filter
        (fun i => decide (limitId ∉ markArea st e.id limitId i)))
      ((events.map Event.id).dedup.filter (fun i => decide (limitId ∉ st i))) := by
    refine List.monotone_filter_right _ ?_
    intro a ha
    simp only [decide_eq_true_eq] at ha ⊢
    intro hmem2
    exact ha (markArea_mono st e.id limitId a limitId hmem2)
  have hin : e.id ∈ (events.map Event.id).dedup.filter (fun i => decide (limitId ∉ st i)) :=
    List.mem_filter.mpr ⟨hmem, by simp only [decide_eq_true_eq]; exact hm⟩
  have hnotin : e.id ∉ (events.map Event.id).dedup.filter
      (fun i => decide (limitId ∉ markArea st e.id limitId i)) := by
    intro hcontra
    have h2 := (List.mem_filter.mp hcontra).2
    simp only [decide_eq_true_eq] at h2
    exact h2 (markArea_self st e.id limitId)
  have hle := hsub.length_le
  rcases Nat.lt_or_ge ((events.map Event.id).dedup.filter
      (fun i => decide (limitId ∉ markArea st e.id limitId i))).length
      ((events.map Event.id).dedup.filter (fun i => decide (limitId ∉ st i))).length
    with hlt | hge
  · exact hlt
  · have heq := hsub.eq_of_length (le_antisymm hle hge)
    rw [heq] at hnotin
    exact absurd hin hnotin

lemma dfsLoop_no_fuel_out {events : List Event} {limitId : Nat} :
    ∀ (n : Nat) (stack : List Event) (st : Nat → List Nat),
      (∀ e ∈ stack, e ∈ events) →
      dfsMeasure events limitId stack st ≤ n →
      dfsLoop events limitId (n + 1) stack st ≠ .outOfFuel := by
  intro n
  induction n with
  | zero =>
    intro stack st _ hme
    cases stack with
    | nil =>
      rw [dfsLoop_nil]
      intro hcon
      cases hcon
    | cons e rest =>
      exfalso
      unfold dfsMeasure at hme
      rw [List.length_cons] at hme
      omega
  | succ n ih =>
    intro stack st hsub hme
    cases stack with
    | nil =>
      rw [dfsLoop_nil]
      intro hcon
      cases hcon
    | cons event rest =>
      rw [dfsLoop_cons]
      by_cases hm : limitId ∈ st event.id
      · rw [if_pos hm]
        refine ih rest st (fun e he => hsub e (List.mem_cons_of_mem _ he)) ?_
        unfold dfsMeasure at hme ⊢
        rw [List.length_cons] at hme
        omega
      · rw [if_neg hm]
        cases hfe : ForEachBranch event with
        | error e =>
          intro hcon
          cases hcon
        | ok outs =>
          show (match resolveLinks events (linkIds outs) with
            | .error e => (.err e : DfsResult)
            | .ok pushed =>
              dfsLoop events limitId (n + 1) (pushed.reverse ++ rest)
                (markArea st event.id limitId)) ≠ .outOfFuel
          cases hrl : resolveLinks events (linkIds outs) with
          | error e =>
            intro hcon
            cases hcon
          | ok pushed =>
            show dfsLoop events limitId (n + 1) (pushed.reverse ++ rest)
              (markArea st event.id limitId) ≠ .outOfFuel
            refine ih (pushed.reverse ++ rest) (markArea st event.id limitId) ?_ ?_
            · intro e he
              rcases List.mem_append.mp he with h1 | h1
              · exact resolveLinks_mem hrl e (List.mem_reverse.mp h1)
              · exact hsub e (List.mem_cons_of_mem _ h1)
            · have hpush : pushed.length ≤ maxLinkCount events := by
                rw [resolveLinks_length hrl]
                have hcount : (linkIds outs).length = eventLinkCount event := by
                  unfold eventLinkCount
                  rw [hfe]
                rw [hcount]
                exact eventLinkCount_le_max (hsub event (List.mem_cons_self _ _))
              have hdec := unmarked_decrease (hsub event (List.mem_cons_self _ _)) hm
              have hmul := Nat.mul_le_mul_right (maxLinkCount events + 1) hdec
              rw [Nat.add_mul, Nat.one_mul] at hmul
              unfold dfsMeasure at hme ⊢
              rw [List.length_cons] at hme
              rw [List.length_append, List.length_reverse]
              omega

lemma propagateAux_no_fuel_out {events : List Event} :
    ∀ (l : List Event) (st : Nat → List Nat), (∀ e ∈ l, e ∈ events) →
      propagateAux events (fuelBound events) l st ≠ .outOfFuel := by
  intro l
  induction l with
  | nil =>
    intro st _
    rw [propagateAux_nil]
    intro hcon
    cases hcon
  | cons x rest ih =>
    intro st hsub
    rw [propagateAux_cons]
    cases hx : x.limitedToArea with
    | none => exact ih st (fun e he => hsub e (List.mem_cons_of_mem _ he))
    | some limitId =>
      have hterm : dfsLoop events limitId (fuelBound events) [x] st ≠ .outOfFuel := by
        have hfb : fuelBound events =
            ((events.map Event.id).dedup.length * (maxLinkCount events + 1) + 1) + 1 := by
          unfold fuelBound
          omega
        rw [hfb]
        refine dfsLoop_no_fuel_out _ [x] st ?_ ?_
        · intro e he
          rw [List.mem_singleton.mp he]
          exact hsub x (List.mem_cons_self _ _)
        · unfold dfsMeasure
          rw [List.length_singleton]
          have h1 := unmarkedCount_le events limitId st
          have h2 := Nat.mul_le_mul_right (maxLinkCount events + 1) h1
          omega
      show (match dfsLoop events limitId (fuelBound events) [x] st with
        | .ok st1 => propagateAux events (fuelBound events) rest st1
        | .err e => (.err e : DfsResult)
        | .outOfFuel => .outOfFuel) ≠ .outOfFuel
      cases hd : dfsLoop events limitId (fuelBound events) [x] st with
      | ok st1 => exact ih st1 (fun e he => hsub e (List.mem_cons_of_mem _ he))
      | err e =>
        intro hcon
        cases hcon
      | outOfFuel => exact absurd hd hterm

/-- C3. The reachability traversal terminates on every finite event table,
cycles included: with the fuel bound used by `propagate` the run never
exhausts its fuel, always producing either a final state or a fatal data
error; and on the 2-event cycle fixture (event 1, origin area 7, links to
event 2 which links back to event 1) each event's derived list ends up
exactly `[7]` — one element, not an infinite loop. -/
theorem propagation_terminates :
    (∀ events : List Event,
      (∃ st, propagate events = .ok st) ∨ (∃ e, propagate events = .err e)) ∧
    (∃ st, propagate cycleEvents = .ok st ∧ st 1 = [7] ∧ st 2 = [7]) := by
  constructor
  · intro events
    cases h : propagate events with
    | ok st => exact .inl ⟨st, rfl⟩
    | err e => exact .inr ⟨e, rfl⟩
    | outOfFuel => exact absurd h (propagateAux_no_fuel_out events (fun _ => []) (fun e he => he))
  · exact ⟨_, rfl, by decide, by decide⟩

end Sunless
